import Mathlib

/-!
Verification of the portfolio-rebalancing notebook and the
market-microstructure feature formulas of this repository.

The rebalancing notebook constructs, with exact data `w` (holdings),
`a_bar` (expected returns) and `r_min`, the convex program

    minimize    phi(x) = sum(abs(x))
    subject to  a_bar . (w + x) / sum(w) >= r_min
                sum(w + x) == sum(w)

and delegates the solve to an external convex solver.  We embed the
problem data over `ℚ` (the notebook works with machine reals; the exact
rational model makes every tolerance statement exact), embed the
constraints and the objective verbatim, and model the external solver by
its contract: it returns a feasible point of minimal objective value, or
reports infeasibility when no feasible point exists.
-/

namespace PortfolioOpt

/-- `sum(v)` over the assets; `sum(w)` and `cp.sum(w + x)` in the notebook. -/
def totalValue {n : ℕ} (v : Fin n → ℚ) : ℚ := ∑ i, v i

/-- The dot product `a_bar.T @ v` of the notebook. -/
def dotp {n : ℕ} (a v : Fin n → ℚ) : ℚ := ∑ i, a i * v i

/-- The transaction cost function of the notebook:
`def phi(x): return cp.sum(cp.abs(x))`. -/
def phi {n : ℕ} (x : Fin n → ℚ) : ℚ := ∑ i, |x i|

/-- The Rebalancer's input: `w`, `a_bar` and `r_min` of the notebook.
`holdings` and `expected_returns` share the length `n` by construction;
`min_return : ℚ` is always finite. -/
structure PortfolioState (n : ℕ) where
  holdings : Fin n → ℚ
  expected_returns : Fin n → ℚ
  min_return : ℚ

/-- The post-trade portfolio `w + x`. -/
def afterTrade {n : ℕ} (ps : PortfolioState n) (x : Fin n → ℚ) : Fin n → ℚ :=
  fun i => ps.holdings i + x i

/-- The two constraints the notebook passes to the solver, verbatim:
`a_bar.T @ (w + x) / sum(w) >= r_min` and `cp.sum(w + x) == cp.sum(w)`. -/
def feasible {n : ℕ} (ps : PortfolioState n) (x : Fin n → ℚ) : Prop :=
  ps.min_return ≤ dotp ps.expected_returns (afterTrade ps x) / totalValue ps.holdings
    ∧ totalValue (afterTrade ps x) = totalValue ps.holdings

/-- The external solver's contract on `problem.solve()` (the solver itself is
an external collaborator, not code of this repository): the returned trade
vector is feasible and minimizes `phi` among all feasible vectors. -/
def Solves {n : ℕ} (ps : PortfolioState n) (x : Fin n → ℚ) : Prop :=
  feasible ps x ∧ ∀ y, feasible ps y → phi x ≤ phi y

/-- The solver reports INFEASIBLE exactly when the constraint set is empty. -/
def reportsInfeasible {n : ℕ} (ps : PortfolioState n) : Prop :=
  ¬ ∃ x, feasible ps x

/-- A valid `PortfolioState` per the data-model invariant: `n ≥ 1` and all
holdings nonnegative (`min_return : ℚ` is finite by construction). -/
def validState {n : ℕ} (ps : PortfolioState n) : Prop :=
  1 ≤ n ∧ ∀ i, 0 ≤ ps.holdings i

/-- A trade of size `t` into asset `imax` funded by asset `imin`. -/
def shiftVec {n : ℕ} (imax imin : Fin n) (t : ℚ) : Fin n → ℚ :=
  fun j => if j = imax then t else if j = imin then -t else 0

lemma totalValue_afterTrade {n : ℕ} (ps : PortfolioState n) (x : Fin n → ℚ) :
    totalValue (afterTrade ps x) = totalValue ps.holdings + totalValue x := by
  simp [totalValue, afterTrade, Finset.sum_add_distrib]

lemma dotp_afterTrade {n : ℕ} (ps : PortfolioState n) (x : Fin n → ℚ) :
    dotp ps.expected_returns (afterTrade ps x)
      = dotp ps.expected_returns ps.holdings + dotp ps.expected_returns x := by
  simp [dotp, afterTrade, mul_add, Finset.sum_add_distrib]

lemma phi_nonneg {n : ℕ} (x : Fin n → ℚ) : 0 ≤ phi x :=
  Finset.sum_nonneg fun i _ => abs_nonneg (x i)

lemma phi_zero {n : ℕ} : phi (fun _ : Fin n => 0) = 0 := by
  simp [phi]

/-- With positive total holdings, feasibility rewrites to a linear condition
on `x` alone. -/
lemma feasible_iff {n : ℕ} (ps : PortfolioState n) (x : Fin n → ℚ)
    (hS : 0 < totalValue ps.holdings) :
    feasible ps x ↔
      ps.min_return * totalValue ps.holdings
          ≤ dotp ps.expected_returns ps.holdings + dotp ps.expected_returns x
        ∧ totalValue x = 0 := by
  unfold feasible
  rw [le_div_iff₀ hS, dotp_afterTrade, totalValue_afterTrade]
  constructor
  · rintro ⟨h1, h2⟩
    exact ⟨h1, by linarith⟩
  · rintro ⟨h1, h2⟩
    exact ⟨h1, by linarith⟩

/-- If `x = 0` is feasible it is optimal: `phi` is nonnegative. -/
lemma zero_solves {n : ℕ} (ps : PortfolioState n)
    (h0 : feasible ps (fun _ => 0)) : Solves ps (fun _ => 0) := by
  refine ⟨h0, fun y _ => ?_⟩
  rw [phi_zero]
  exact phi_nonneg y

lemma dotp_zero {n : ℕ} (a : Fin n → ℚ) : dotp a (fun _ => 0) = 0 := by
  simp [dotp]

lemma totalValue_zero {n : ℕ} : totalValue (fun _ : Fin n => 0) = 0 := by
  simp [totalValue]

/-- `x = 0` is feasible exactly when the initial portfolio already meets the
return floor. -/
lemma feasible_zero_iff {n : ℕ} (ps : PortfolioState n)
    (hS : 0 < totalValue ps.holdings) :
    feasible ps (fun _ => 0) ↔
      ps.min_return * totalValue ps.holdings
        ≤ dotp ps.expected_returns ps.holdings := by
  rw [feasible_iff ps _ hS, dotp_zero, totalValue_zero]
  simp

lemma totalValue_shiftVec {n : ℕ} (imax imin : Fin n) (t : ℚ)
    (hne : imax ≠ imin) : totalValue (shiftVec imax imin t) = 0 := by
  have hpt : ∀ j, shiftVec imax imin t j
      = (if j = imax then t else 0) + (if j = imin then -t else 0) := by
    intro j
    by_cases h1 : j = imax
    · subst h1
      simp [shiftVec, hne]
    · by_cases h2 : j = imin <;> simp [shiftVec, h1, h2, Ne.symm hne]
  unfold totalValue
  calc (∑ j, shiftVec imax imin t j)
      = ∑ j, ((if j = imax then t else 0) + (if j = imin then -t else 0)) := by
        exact Finset.sum_congr rfl fun j _ => hpt j
    _ = 0 := by
        rw [Finset.sum_add_distrib, Finset.sum_ite_eq' Finset.univ imax fun _ => t,
          Finset.sum_ite_eq' Finset.univ imin fun _ => -t]
        simp

lemma dotp_shiftVec {n : ℕ} (a : Fin n → ℚ) (imax imin : Fin n) (t : ℚ)
    (hne : imax ≠ imin) :
    dotp a (shiftVec imax imin t) = t * (a imax - a imin) := by
  have hpt : ∀ j, a j * shiftVec imax imin t j
      = (if j = imax then a j * t else 0) + (if j = imin then a j * -t else 0) := by
    intro j
    by_cases h1 : j = imax
    · subst h1
      simp [shiftVec, hne]
    · by_cases h2 : j = imin <;> simp [shiftVec, h1, h2, Ne.symm hne]
  unfold dotp
  calc (∑ j, a j * shiftVec imax imin t j)
      = ∑ j, ((if j = imax then a j * t else 0) + (if j = imin then a j * -t else 0)) := by
        exact Finset.sum_congr rfl fun j _ => hpt j
    _ = a imax * t + a imin * -t := by
        rw [Finset.sum_add_distrib, Finset.sum_ite_eq' Finset.univ imax fun j => a j * t,
          Finset.sum_ite_eq' Finset.univ imin fun j => a j * -t]
        simp
    _ = t * (a imax - a imin) := by ring

lemma phi_shiftVec {n : ℕ} (imax imin : Fin n) (t : ℚ) (hne : imax ≠ imin) :
    phi (shiftVec imax imin t) = 2 * |t| := by
  have hpt : ∀ j, |shiftVec imax imin t j|
      = (if j = imax then |t| else 0) + (if j = imin then |t| else 0) := by
    intro j
    by_cases h1 : j = imax
    · subst h1
      simp [shiftVec, hne]
    · by_cases h2 : j = imin <;> simp [shiftVec, h1, h2, Ne.symm hne]
  unfold phi
  calc (∑ j, |shiftVec imax imin t j|)
      = ∑ j, ((if j = imax then |t| else 0) + (if j = imin then |t| else 0)) := by
        exact Finset.sum_congr rfl fun j _ => hpt j
    _ = 2 * |t| := by
        rw [Finset.sum_add_distrib, Finset.sum_ite_eq' Finset.univ imax fun _ => |t|,
          Finset.sum_ite_eq' Finset.univ imin fun _ => |t|]
        simp
        ring

/-- The centering bound: on the hyperplane `sum(x) = 0`, the return gain
`a . x` costs at least `2 / (hi - lo)` units of traded volume per unit of
gain, where `lo` and `hi` bound the per-asset returns. -/
lemma dotp_le_of_totalValue_zero {n : ℕ} (a x : Fin n → ℚ) (lo hi : ℚ)
    (hlo : ∀ i, lo ≤ a i) (hhi : ∀ i, a i ≤ hi)
    (hx : totalValue x = 0) :
    dotp a x ≤ (hi - lo) / 2 * phi x := by
  have hc : dotp a x = ∑ i, (a i - (hi + lo) / 2) * x i := by
    unfold dotp
    rw [Finset.sum_congr rfl fun i _ => sub_mul (a i) ((hi + lo) / 2) (x i),
      Finset.sum_sub_distrib, ← Finset.mul_sum]
    have : (∑ i, x i) = 0 := hx
    rw [this, mul_zero, sub_zero]
  rw [hc]
  have step1 : (∑ i, (a i - (hi + lo) / 2) * x i)
      ≤ ∑ i, (hi - lo) / 2 * |x i| := by
    apply Finset.sum_le_sum
    intro i _
    have h1 : (a i - (hi + lo) / 2) * x i ≤ |a i - (hi + lo) / 2| * |x i| := by
      rw [← abs_mul]
      exact le_abs_self _
    have h2 : |a i - (hi + lo) / 2| ≤ (hi - lo) / 2 := by
      rw [abs_le]
      constructor
      · have := hlo i
        linarith
      · have := hhi i
        linarith
    have h3 : |a i - (hi + lo) / 2| * |x i| ≤ (hi - lo) / 2 * |x i| :=
      mul_le_mul_of_nonneg_right h2 (abs_nonneg (x i))
    linarith
  calc (∑ i, (a i - (hi + lo) / 2) * x i)
      ≤ ∑ i, (hi - lo) / 2 * |x i| := step1
    _ = (hi - lo) / 2 * phi x := by
        rw [← Finset.mul_sum]
        rfl

/-- Any feasible trade vector moves at least `2 * (r_min * S - a . w) /
(hi - lo)` units of volume. -/
lemma phi_lower_of_feasible {n : ℕ} (ps : PortfolioState n)
    (hS : 0 < totalValue ps.holdings) (lo hi : ℚ)
    (hlo : ∀ i, lo ≤ ps.expected_returns i)
    (hhi : ∀ i, ps.expected_returns i ≤ hi)
    (y : Fin n → ℚ) (hy : feasible ps y) :
    ps.min_return * totalValue ps.holdings
        - dotp ps.expected_returns ps.holdings
      ≤ (hi - lo) / 2 * phi y := by
  rw [feasible_iff ps y hS] at hy
  have h1 : ps.min_return * totalValue ps.holdings
      - dotp ps.expected_returns ps.holdings ≤ dotp ps.expected_returns y := by
    linarith [hy.1]
  exact le_trans h1 (dotp_le_of_totalValue_zero _ _ lo hi hlo hhi hy.2)

/-- When the return floor is not yet met and the best and worst returns
differ, the one-pair trade of size `(r_min * S - a . w) / (hi - lo)` from the
worst asset into the best one is an optimal solution of the program. -/
lemma solves_shiftVec {n : ℕ} (ps : PortfolioState n)
    (hS : 0 < totalValue ps.holdings) (imax imin : Fin n)
    (hhi : ∀ j, ps.expected_returns j ≤ ps.expected_returns imax)
    (hlo : ∀ j, ps.expected_returns imin ≤ ps.expected_returns j)
    (hlt : ps.expected_returns imin < ps.expected_returns imax)
    (hδ : 0 < ps.min_return * totalValue ps.holdings
        - dotp ps.expected_returns ps.holdings) :
    Solves ps (shiftVec imax imin
      ((ps.min_return * totalValue ps.holdings
          - dotp ps.expected_returns ps.holdings)
        / (ps.expected_returns imax - ps.expected_returns imin))) := by
  set S := totalValue ps.holdings with hSdef
  set R := dotp ps.expected_returns ps.holdings with hRdef
  set gap := ps.expected_returns imax - ps.expected_returns imin with hgap
  have hgap0 : 0 < gap := sub_pos.mpr hlt
  set t := (ps.min_return * S - R) / gap with ht
  have ht0 : 0 < t := div_pos hδ hgap0
  have hne : imax ≠ imin := by
    intro h
    rw [h] at hlt
    exact lt_irrefl _ hlt
  have hdot : dotp ps.expected_returns (shiftVec imax imin t)
      = ps.min_return * S - R := by
    rw [dotp_shiftVec ps.expected_returns imax imin t hne, ← hgap, ht,
      div_mul_cancel₀ _ (ne_of_gt hgap0)]
  have hfeas : feasible ps (shiftVec imax imin t) := by
    rw [feasible_iff ps _ hS]
    refine ⟨?_, totalValue_shiftVec imax imin t hne⟩
    rw [hdot]
    linarith
  refine ⟨hfeas, fun y hy => ?_⟩
  have hbound := phi_lower_of_feasible ps hS (ps.expected_returns imin)
    (ps.expected_returns imax) hlo hhi y hy
  rw [phi_shiftVec imax imin t hne, abs_of_pos ht0]
  have h2 : t * gap ≤ gap / 2 * phi y := by
    rw [ht, div_mul_cancel₀ _ (ne_of_gt hgap0)]
    exact hbound
  nlinarith [hgap0, h2]

lemma fin_pos_of_totalValue_pos {n : ℕ} (v : Fin n → ℚ)
    (hS : 0 < totalValue v) : 0 < n := by
  rcases Nat.eq_zero_or_pos n with h | h
  · subst h
    simp [totalValue] at hS
  · exact h

/-- If the returns vector is constant, its dot with any vector is the common
value times the vector's sum. -/
lemma dotp_const {n : ℕ} (a x : Fin n → ℚ) (c : ℚ) (hc : ∀ i, a i = c) :
    dotp a x = c * totalValue x := by
  unfold dotp totalValue
  rw [Finset.mul_sum]
  exact Finset.sum_congr rfl fun i _ => by rw [hc i]

/-- Whenever the constraint set is nonempty (and total holdings are
positive), the program attains its minimum: the external solver returns a
trade vector rather than failing. -/
lemma exists_solves {n : ℕ} (ps : PortfolioState n)
    (hS : 0 < totalValue ps.holdings)
    (hfeas : ∃ x, feasible ps x) : ∃ x, Solves ps x := by
  by_cases h0 : ps.min_return * totalValue ps.holdings
      ≤ dotp ps.expected_returns ps.holdings
  · exact ⟨fun _ => 0, zero_solves ps ((feasible_zero_iff ps hS).mpr h0)⟩
  push_neg at h0
  obtain ⟨x0, hx0⟩ := hfeas
  rw [feasible_iff ps x0 hS] at hx0
  have hgain : 0 < dotp ps.expected_returns x0 := by linarith [hx0.1]
  have hn : 0 < n := fin_pos_of_totalValue_pos ps.holdings hS
  haveI : Nonempty (Fin n) := ⟨⟨0, hn⟩⟩
  obtain ⟨imax, -, hhi⟩ := Finset.exists_max_image Finset.univ
    ps.expected_returns Finset.univ_nonempty
  obtain ⟨imin, -, hlo⟩ := Finset.exists_min_image Finset.univ
    ps.expected_returns Finset.univ_nonempty
  have hhi2 : ∀ j, ps.expected_returns j ≤ ps.expected_returns imax :=
    fun j => hhi j (Finset.mem_univ j)
  have hlo2 : ∀ j, ps.expected_returns imin ≤ ps.expected_returns j :=
    fun j => hlo j (Finset.mem_univ j)
  have hlt : ps.expected_returns imin < ps.expected_returns imax := by
    rcases lt_or_ge (ps.expected_returns imin) (ps.expected_returns imax) with h | h
    · exact h
    · exfalso
      have hconst : ∀ i, ps.expected_returns i = ps.expected_returns imax := by
        intro i
        exact le_antisymm (hhi2 i) (le_trans h (hlo2 i))
      have := dotp_const ps.expected_returns x0 (ps.expected_returns imax) hconst
      rw [this, hx0.2, mul_zero] at hgain
      exact lt_irrefl 0 hgain
  exact ⟨_, solves_shiftVec ps hS imax imin hhi2 hlo2 hlt (by linarith)⟩

/-- With nonnegative holdings of positive total and `r_min` at most the best
per-asset return, the constraint set is nonempty. -/
lemma exists_feasible_of_min_le_max {n : ℕ} (ps : PortfolioState n)
    (hw : ∀ i, 0 ≤ ps.holdings i)
    (hS : 0 < totalValue ps.holdings)
    (hmax : ∃ i, ps.min_return ≤ ps.expected_returns i) :
    ∃ x, feasible ps x := by
  by_cases h0 : ps.min_return * totalValue ps.holdings
      ≤ dotp ps.expected_returns ps.holdings
  · exact ⟨fun _ => 0, (feasible_zero_iff ps hS).mpr h0⟩
  push_neg at h0
  obtain ⟨i0, hi0⟩ := hmax
  have hn : 0 < n := fin_pos_of_totalValue_pos ps.holdings hS
  haveI : Nonempty (Fin n) := ⟨⟨0, hn⟩⟩
  obtain ⟨imax, -, hhi⟩ := Finset.exists_max_image Finset.univ
    ps.expected_returns Finset.univ_nonempty
  obtain ⟨imin, -, hlo⟩ := Finset.exists_min_image Finset.univ
    ps.expected_returns Finset.univ_nonempty
  have hhi2 : ∀ j, ps.expected_returns j ≤ ps.expected_returns imax :=
    fun j => hhi j (Finset.mem_univ j)
  have hlo2 : ∀ j, ps.expected_returns imin ≤ ps.expected_returns j :=
    fun j => hlo j (Finset.mem_univ j)
  have hrmax : ps.min_return ≤ ps.expected_returns imax :=
    le_trans hi0 (hhi2 i0)
  -- the average return of the holdings is below `r_min ≤ a imax`, so some
  -- held asset has a return strictly below `a imax`
  have hsum : (∑ i, ps.expected_returns i * ps.holdings i)
      < ∑ i, ps.expected_returns imax * ps.holdings i := by
    have h1 : ps.min_return * totalValue ps.holdings
        ≤ ps.expected_returns imax * totalValue ps.holdings :=
      mul_le_mul_of_nonneg_right hrmax (le_of_lt hS)
    have h2 : (∑ i, ps.expected_returns imax * ps.holdings i)
        = ps.expected_returns imax * totalValue ps.holdings := by
      rw [totalValue, Finset.mul_sum]
    have h3 : (∑ i, ps.expected_returns i * ps.holdings i)
        = dotp ps.expected_returns ps.holdings := rfl
    rw [h2, h3]
    linarith
  obtain ⟨j, -, hj⟩ := Finset.exists_lt_of_sum_lt hsum
  have hwj : 0 < ps.holdings j := by
    rcases lt_or_eq_of_le (hw j) with h | h
    · exact h
    · exfalso
      rw [← h] at hj
      simp at hj
  have hjlt : ps.expected_returns j < ps.expected_returns imax :=
    lt_of_mul_lt_mul_right (by linarith [hj]) (le_of_lt hwj)
  have hlt : ps.expected_returns imin < ps.expected_returns imax :=
    lt_of_le_of_lt (hlo2 j) hjlt
  exact ⟨_, (solves_shiftVec ps hS imax imin hhi2 hlo2 hlt (by linarith)).1⟩

/-- A state whose constraint set is nonempty never yields INFEASIBLE, and
conversely. -/
lemma not_reportsInfeasible_iff {n : ℕ} (ps : PortfolioState n) :
    ¬ reportsInfeasible ps ↔ ∃ x, feasible ps x := by
  unfold reportsInfeasible
  exact not_not

/-- With positive total holdings, the constraint set is empty exactly when
the returns vector is constant and that common return is below `r_min`:
whenever two returns differ, a value-conserving trade can reach any expected
return, so the program is feasible for every `r_min`. -/
lemma infeasible_iff {n : ℕ} (ps : PortfolioState n)
    (hS : 0 < totalValue ps.holdings) :
    reportsInfeasible ps ↔
      (∀ i j, ps.expected_returns i = ps.expected_returns j)
        ∧ ∀ i, ps.expected_returns i < ps.min_return := by
  have hn : 0 < n := fin_pos_of_totalValue_pos ps.holdings hS
  haveI : Nonempty (Fin n) := ⟨⟨0, hn⟩⟩
  constructor
  · intro hinf
    by_cases hconst : ∀ i j, ps.expected_returns i = ps.expected_returns j
    · refine ⟨hconst, fun i => ?_⟩
      by_contra hge
      push_neg at hge
      apply hinf
      refine ⟨fun _ => 0, (feasible_zero_iff ps hS).mpr ?_⟩
      have : dotp ps.expected_returns ps.holdings
          = ps.expected_returns i * totalValue ps.holdings :=
        dotp_const _ _ _ fun j => hconst j i
      rw [this]
      exact mul_le_mul_of_nonneg_right hge (le_of_lt hS)
    · exfalso
      push_neg at hconst
      obtain ⟨i, j, hij⟩ := hconst
      obtain ⟨imax, -, hhi⟩ := Finset.exists_max_image Finset.univ
        ps.expected_returns Finset.univ_nonempty
      obtain ⟨imin, -, hlo⟩ := Finset.exists_min_image Finset.univ
        ps.expected_returns Finset.univ_nonempty
      have hhi2 : ∀ k, ps.expected_returns k ≤ ps.expected_returns imax :=
        fun k => hhi k (Finset.mem_univ k)
      have hlo2 : ∀ k, ps.expected_returns imin ≤ ps.expected_returns k :=
        fun k => hlo k (Finset.mem_univ k)
      have hlt : ps.expected_returns imin < ps.expected_returns imax := by
        rcases lt_or_le (ps.expected_returns i) (ps.expected_returns j) with h | h
        · exact lt_of_le_of_lt (hlo2 i) (lt_of_lt_of_le h (hhi2 j))
        · have h2 : ps.expected_returns j < ps.expected_returns i :=
            lt_of_le_of_ne h (fun hh => hij hh.symm)
          exact lt_of_le_of_lt (hlo2 j) (lt_of_lt_of_le h2 (hhi2 i))
      apply hinf
      by_cases h0 : ps.min_return * totalValue ps.holdings
          ≤ dotp ps.expected_returns ps.holdings
      · exact ⟨fun _ => 0, (feasible_zero_iff ps hS).mpr h0⟩
      · push_neg at h0
        exact ⟨_, (solves_shiftVec ps hS imax imin hhi2 hlo2 hlt (by linarith)).1⟩
  · rintro ⟨hconst, hlt⟩ ⟨x, hx⟩
    rw [feasible_iff ps x hS] at hx
    obtain ⟨i0⟩ := (inferInstance : Nonempty (Fin n))
    have h1 : dotp ps.expected_returns x = 0 := by
      rw [dotp_const ps.expected_returns x (ps.expected_returns i0)
        (fun k => hconst k i0), hx.2, mul_zero]
    have h2 : dotp ps.expected_returns ps.holdings
        = ps.expected_returns i0 * totalValue ps.holdings :=
      dotp_const _ _ _ fun k => hconst k i0
    have h3 := hx.1
    rw [h1, h2] at h3
    have h5 : ps.min_return * totalValue ps.holdings
        ≤ ps.expected_returns i0 * totalValue ps.holdings := by linarith
    have h4 : ps.min_return ≤ ps.expected_returns i0 :=
      le_of_mul_le_mul_right h5 hS
    exact absurd h4 (not_le.mpr (hlt i0))

/-! ### Feature Engine formulas

The repository's files document the ten microstructure features in prose
only (the notebook holding their code is referenced but absent), so the two
features the claims touch are modelled from the spec's formulas, with
`Option` as the explicit undefined-value channel. -/

/-- Modelled from the spec: the bid-ask bounce feature, whose code (the
RL-PPO-v2 notebook) is not among the repository's files.  For trade price
`t`, best bid `b` and best ask `a` it is `(t - b) / (a - b)`, reported raw
(never clamped), and undefined when `a == b`. -/
def bidAskBounce (t b a : ℚ) : Option ℚ :=
  if a = b then none else some ((t - b) / (a - b))

/-- Modelled from the spec: VWAP over a window of (price, volume) pairs,
whose code (the RL-PPO-v2 notebook) is not among the repository's files:
`sum(price_i * volume_i) / sum(volume_i)`, undefined when the total volume
is zero. -/
def vwap (obs : List (ℚ × ℚ)) : Option ℚ :=
  if (obs.map Prod.snd).sum = 0 then none
  else some ((obs.map fun pv => pv.1 * pv.2).sum / (obs.map Prod.snd).sum)

/-- Modelled from the spec: TWAP over a window of (price, duration-in-force)
pairs, whose code (the RL-PPO-v2 notebook) is not among the repository's
files: `sum(price_i * dt_i) / sum(dt_i)`, undefined when the total duration
is zero (in particular for an empty window). -/
def twap (obs : List (ℚ × ℚ)) : Option ℚ :=
  if (obs.map Prod.snd).sum = 0 then none
  else some ((obs.map fun pd => pd.1 * pd.2).sum / (obs.map Prod.snd).sum)

/-! ### Concrete portfolio states used by witnesses and counterexamples -/

/-- One asset held, return 2, floor 1: the zero trade is already optimal. -/
def psUnit : PortfolioState 1 := ⟨![1], ![2], 1⟩

/-- Two equal assets, equal returns, met floor: used to compare the optimal
zero trade against a feasible nonzero trade. -/
def psW2 : PortfolioState 2 := ⟨![1, 1], ![2, 2], 1⟩

/-- Two top assets tie on return: the optimum is attained by two distinct
trade vectors of equal cost. -/
def psTie : PortfolioState 3 := ⟨![0, 0, 3], ![2, 2, 1], 4/3⟩

/-- `min_return` (3) above the best return (2), yet returns differ: the
program is still feasible, refuting the claimed infeasibility test. -/
def psC4 : PortfolioState 2 := ⟨![1, 0], ![1, 2], 3⟩

/-- One asset, return 2, floor 3: genuinely infeasible. -/
def psConst : PortfolioState 1 := ⟨![1], ![2], 3⟩

/-- Long-only state whose every feasible trade opens a short position. -/
def psShort : PortfolioState 2 := ⟨![1, 1], ![1, 2], 3⟩

/-- The optimal trade for `psShort`: buy 3 of asset 1, sell 3 of asset 0. -/
def xShort : Fin 2 → ℚ := shiftVec 1 0 3

/-- A malformed state (negative holding) on which the solve proceeds. -/
def psNeg : PortfolioState 2 := ⟨![-1, 2], ![1, 1], 1⟩

lemma psUnit_solves : Solves psUnit (fun _ => 0) := by
  apply zero_solves
  have hS : (0 : ℚ) < totalValue psUnit.holdings := by
    norm_num [totalValue, psUnit]
  rw [feasible_zero_iff psUnit hS]
  norm_num [totalValue, dotp, psUnit]

lemma psW2_solves : Solves psW2 (fun _ => 0) := by
  apply zero_solves
  have hS : (0 : ℚ) < totalValue psW2.holdings := by
    norm_num [totalValue, psW2, Fin.sum_univ_two]
  rw [feasible_zero_iff psW2 hS]
  norm_num [totalValue, dotp, psW2, Fin.sum_univ_two]

lemma psW2_feasible : feasible psW2 ![1, -1] := by
  have hS : (0 : ℚ) < totalValue psW2.holdings := by
    norm_num [totalValue, psW2, Fin.sum_univ_two]
  rw [feasible_iff psW2 _ hS]
  constructor
  · norm_num [totalValue, dotp, psW2, Fin.sum_univ_two]
  · norm_num [totalValue, Fin.sum_univ_two]

lemma psTie_S : (0 : ℚ) < totalValue psTie.holdings := by
  norm_num [totalValue, psTie, Fin.sum_univ_three]

lemma psTie_solves_a : Solves psTie (shiftVec 0 2 1) := by
  have h := solves_shiftVec psTie psTie_S 0 2
    (by intro j; fin_cases j <;> norm_num [psTie])
    (by intro j; fin_cases j <;> norm_num [psTie])
    (by norm_num [psTie])
    (by norm_num [psTie, totalValue, dotp, Fin.sum_univ_three])
  have ht : (psTie.min_return * totalValue psTie.holdings
      - dotp psTie.expected_returns psTie.holdings)
      / (psTie.expected_returns 0 - psTie.expected_returns 2) = 1 := by
    norm_num [psTie, totalValue, dotp, Fin.sum_univ_three]
  rwa [ht] at h

lemma psTie_solves_b : Solves psTie (shiftVec 1 2 1) := by
  have h := solves_shiftVec psTie psTie_S 1 2
    (by intro j; fin_cases j <;> norm_num [psTie])
    (by intro j; fin_cases j <;> norm_num [psTie])
    (by norm_num [psTie])
    (by norm_num [psTie, totalValue, dotp, Fin.sum_univ_three])
  have ht : (psTie.min_return * totalValue psTie.holdings
      - dotp psTie.expected_returns psTie.holdings)
      / (psTie.expected_returns 1 - psTie.expected_returns 2) = 1 := by
    norm_num [psTie, totalValue, dotp, Fin.sum_univ_three]
  rwa [ht] at h

lemma psC4_S : (0 : ℚ) < totalValue psC4.holdings := by
  norm_num [totalValue, psC4, Fin.sum_univ_two]

lemma psC4_solves : Solves psC4 (shiftVec 1 0 2) := by
  have h := solves_shiftVec psC4 psC4_S 1 0
    (by intro j; fin_cases j <;> norm_num [psC4])
    (by intro j; fin_cases j <;> norm_num [psC4])
    (by norm_num [psC4])
    (by norm_num [psC4, totalValue, dotp, Fin.sum_univ_two])
  have ht : (psC4.min_return * totalValue psC4.holdings
      - dotp psC4.expected_returns psC4.holdings)
      / (psC4.expected_returns 1 - psC4.expected_returns 0) = 2 := by
    norm_num [psC4, totalValue, dotp, Fin.sum_univ_two]
  rwa [ht] at h

lemma psShort_S : (0 : ℚ) < totalValue psShort.holdings := by
  norm_num [totalValue, psShort, Fin.sum_univ_two]

lemma psShort_solves : Solves psShort xShort := by
  have h := solves_shiftVec psShort psShort_S 1 0
    (by intro j; fin_cases j <;> norm_num [psShort])
    (by intro j; fin_cases j <;> norm_num [psShort])
    (by norm_num [psShort])
    (by norm_num [psShort, totalValue, dotp, Fin.sum_univ_two])
  have ht : (psShort.min_return * totalValue psShort.holdings
      - dotp psShort.expected_returns psShort.holdings)
      / (psShort.expected_returns 1 - psShort.expected_returns 0) = 3 := by
    norm_num [psShort, totalValue, dotp, Fin.sum_univ_two]
  rwa [ht] at h

lemma psNeg_solves : Solves psNeg (fun _ => 0) := by
  apply zero_solves
  have hS : (0 : ℚ) < totalValue psNeg.holdings := by
    norm_num [totalValue, psNeg, Fin.sum_univ_two]
  rw [feasible_zero_iff psNeg hS]
  norm_num [psNeg, totalValue, dotp, Fin.sum_univ_two]

/-! ### The end-to-end reference scenario of the notebook (seed 0) -/

/-- `w = [45, 48, 65, 68, 68]`, the notebook's holdings. -/
def wRef : Fin 5 → ℚ := ![45, 48, 65, 68, 68]

/-- The notebook's expected returns, as printed to 8 decimal places. -/
def aRef : Fin 5 → ℚ :=
  ![184725174/100000000, 162356370/100000000, 138438171/100000000,
    129753461/100000000, 105671298/100000000]

/-- The reference `PortfolioState`: `r_min = 1.5`. -/
def psRef : PortfolioState 5 := ⟨wRef, aRef, 3/2⟩

/-- The optimal trade size for the reference scenario:
`(1.5 * 294 - aRef . wRef) / (aRef 0 - aRef 4) ≈ 37.783`. -/
def tRef : ℚ := 2986896683/79053876

/-- The optimal trade vector: buy `tRef` of asset 0, sell `tRef` of asset 4. -/
def xRef : Fin 5 → ℚ := shiftVec 0 4 tRef

/-- The optimized holdings the notebook (and the spec) report. -/
def optRef : Fin 5 → ℚ := ![8278/100, 48, 65, 68, 3022/100]

lemma psRef_S : totalValue psRef.holdings = 294 := by
  norm_num [totalValue, psRef, wRef, Fin.sum_univ_five]

lemma psRef_Spos : (0 : ℚ) < totalValue psRef.holdings := by
  rw [psRef_S]
  norm_num

lemma psRef_dotp : dotp psRef.expected_returns psRef.holdings
    = 41113103317/100000000 := by
  norm_num [dotp, psRef, wRef, aRef, Fin.sum_univ_five]

lemma psRef_hi : ∀ j, psRef.expected_returns j ≤ psRef.expected_returns 0 := by
  intro j
  fin_cases j <;> norm_num [psRef, aRef]

lemma psRef_lo : ∀ j, psRef.expected_returns 4 ≤ psRef.expected_returns j := by
  intro j
  fin_cases j <;> norm_num [psRef, aRef]

lemma psRef_solves : Solves psRef xRef := by
  have h := solves_shiftVec psRef psRef_Spos 0 4 psRef_hi psRef_lo
    (by norm_num [psRef, aRef])
    (by rw [psRef_S, psRef_dotp]; norm_num [psRef])
  have ht : (psRef.min_return * totalValue psRef.holdings
      - dotp psRef.expected_returns psRef.holdings)
      / (psRef.expected_returns 0 - psRef.expected_returns 4) = tRef := by
    rw [psRef_S, psRef_dotp]
    norm_num [psRef, aRef, tRef]
  rwa [ht] at h

/-! ### The claims -/

/-- C1.  Value conservation: on every valid `PortfolioState` on which the
Rebalancer succeeds with trade vector `x`, the post-trade total
`sum(holdings + x)` equals the pre-trade total `sum(holdings)` — exactly in
the rational model, hence within any relative tolerance. -/
theorem value_conservation {n : ℕ} (ps : PortfolioState n) (x : Fin n → ℚ)
    (_hv : validState ps) (hx : Solves ps x) :
    totalValue (afterTrade ps x) = totalValue ps.holdings := hx.1.2

/-- Witness for C1 at the concrete state `psUnit`, solved by the zero trade. -/
theorem value_conservation_witness :
    totalValue (afterTrade psUnit (fun _ => 0)) = totalValue psUnit.holdings :=
  value_conservation psUnit (fun _ => 0)
    ⟨le_refl 1, by intro i; fin_cases i <;> norm_num [psUnit]⟩ psUnit_solves

/-- C2.  Return floor: on every valid `PortfolioState` of positive total
holdings with `min_return` at most the best per-asset return, the Rebalancer
returns a trade vector, and every returned trade vector meets
`a_bar . (w + x) / sum(w) ≥ r_min` — exactly, hence within any tolerance. -/
theorem return_floor {n : ℕ} (ps : PortfolioState n)
    (hv : validState ps) (hS : 0 < totalValue ps.holdings)
    (hmax : ∃ i, ps.min_return ≤ ps.expected_returns i) :
    (∃ x, Solves ps x) ∧
      ∀ x, Solves ps x →
        ps.min_return ≤ dotp ps.expected_returns (afterTrade ps x)
          / totalValue ps.holdings :=
  ⟨exists_solves ps hS (exists_feasible_of_min_le_max ps hv.2 hS hmax),
    fun _ hx => hx.1.1⟩

/-- Witness for C2 at the concrete state `psUnit`. -/
theorem return_floor_witness :
    (∃ x, Solves psUnit x) ∧
      ∀ x, Solves psUnit x →
        psUnit.min_return ≤ dotp psUnit.expected_returns (afterTrade psUnit x)
          / totalValue psUnit.holdings :=
  return_floor psUnit
    ⟨le_refl 1, by intro i; fin_cases i <;> norm_num [psUnit]⟩
    (by norm_num [totalValue, psUnit])
    ⟨0, by norm_num [psUnit]⟩

/-- C3.  L1-optimality: a trade vector the Rebalancer returns minimizes
`phi = sum(abs(x))` among all vectors meeting the return-floor and
value-conservation constraints. -/
theorem l1_optimality {n : ℕ} (ps : PortfolioState n) (x : Fin n → ℚ)
    (_hv : validState ps) (hx : Solves ps x) (y : Fin n → ℚ)
    (hret : ps.min_return ≤ dotp ps.expected_returns (afterTrade ps y)
      / totalValue ps.holdings)
    (hcons : totalValue (afterTrade ps y) = totalValue ps.holdings) :
    phi x ≤ phi y := hx.2 y ⟨hret, hcons⟩

/-- Witness for C3 at `psW2`: the returned zero trade costs no more than the
feasible swap `[1, -1]`. -/
theorem l1_optimality_witness :
    phi (fun _ : Fin 2 => (0 : ℚ)) ≤ phi ![1, -1] :=
  l1_optimality psW2 (fun _ => 0)
    ⟨by norm_num, by intro i; fin_cases i <;> norm_num [psW2]⟩
    psW2_solves ![1, -1] psW2_feasible.1 psW2_feasible.2

/-- C4 counterexample.  At `psC4` the floor `min_return = 3` exceeds both
per-asset returns (so `min_return > max_i a_i`), yet the problem is NOT
reported infeasible: the constraints put no lower bound on `holdings + x`,
and a trade vector is returned. -/
theorem infeasibility_characterization_cex :
    psC4.expected_returns 0 < psC4.min_return
    ∧ psC4.expected_returns 1 < psC4.min_return
    ∧ ¬ reportsInfeasible psC4
    ∧ ∃ x, Solves psC4 x := by
  refine ⟨by norm_num [psC4], by norm_num [psC4], ?_, ⟨_, psC4_solves⟩⟩
  rw [not_reportsInfeasible_iff]
  exact ⟨_, psC4_solves.1⟩

/-- C4 as amended.  On a valid state of positive total holdings the solver
reports INFEASIBLE exactly when all expected returns are equal and that
common return is below `min_return`; in every other case (in particular
whenever two returns differ) a trade vector is returned. -/
theorem infeasibility_characterization {n : ℕ} (ps : PortfolioState n)
    (_hv : validState ps) (hS : 0 < totalValue ps.holdings) :
    (reportsInfeasible ps ↔
        (∀ i j, ps.expected_returns i = ps.expected_returns j)
          ∧ ∀ i, ps.expected_returns i < ps.min_return)
      ∧ (¬ reportsInfeasible ps → ∃ x, Solves ps x) :=
  ⟨infeasible_iff ps hS,
    fun h => exists_solves ps hS ((not_reportsInfeasible_iff ps).mp h)⟩

/-- Witness for the amended C4 at the genuinely infeasible state `psConst`. -/
theorem infeasibility_characterization_witness :
    (reportsInfeasible psConst ↔
        (∀ i j, psConst.expected_returns i = psConst.expected_returns j)
          ∧ ∀ i, psConst.expected_returns i < psConst.min_return)
      ∧ (¬ reportsInfeasible psConst → ∃ x, Solves psConst x) :=
  infeasibility_characterization psConst
    ⟨le_refl 1, by intro i; fin_cases i <;> norm_num [psConst]⟩
    (by norm_num [totalValue, psConst])

/-- C5 counterexample.  In the reference scenario the initial weighted
return is `411.13103317 / 294 < 1.5`, so the zero trade is infeasible and
the optimal objective is not close to 0: no returned trade vector can have
`phi x < 1`. -/
theorem reference_scenario_cex :
    dotp psRef.expected_returns psRef.holdings / totalValue psRef.holdings
        < 3/2
    ∧ ¬ ∃ x, Solves psRef x ∧ phi x < 1 := by
  constructor
  · rw [psRef_S, psRef_dotp]
    norm_num
  · rintro ⟨x, hx, hphi⟩
    have hb := phi_lower_of_feasible psRef psRef_Spos
      (psRef.expected_returns 4) (psRef.expected_returns 0)
      psRef_lo psRef_hi x hx.1
    rw [psRef_S, psRef_dotp] at hb
    norm_num [psRef, aRef] at hb
    have h0 : (0 : ℚ) ≤ phi x := phi_nonneg x
    nlinarith [hb, hphi, h0]

/-- C5 as amended.  In the reference scenario the Rebalancer returns
`xRef = tRef * (e_0 - e_4)` with `tRef ≈ 37.783`: total value 294 is
conserved, the weighted return meets the floor `1.5`, the optimized
holdings are within 0.01 of `[82.78, 48, 65, 68, 30.22]`, and the optimal
objective is `2 * tRef ≈ 75.566` (not ≈ 0) and is the objective value of
every optimal trade vector. -/
theorem reference_scenario_amended :
    Solves psRef xRef
    ∧ totalValue (afterTrade psRef xRef) = 294
    ∧ psRef.min_return ≤ dotp psRef.expected_returns (afterTrade psRef xRef)
        / totalValue psRef.holdings
    ∧ phi xRef = 2 * tRef
    ∧ (∀ i, |afterTrade psRef xRef i - optRef i| ≤ 1/100)
    ∧ ∀ x, Solves psRef x → phi x = 2 * tRef := by
  have hsol := psRef_solves
  have hphi : phi xRef = 2 * tRef := by
    have hne : (0 : Fin 5) ≠ 4 := by decide
    rw [xRef, phi_shiftVec 0 4 tRef hne, abs_of_pos (by norm_num [tRef])]
  refine ⟨hsol, ?_, hsol.1.1, hphi, ?_, ?_⟩
  · rw [hsol.1.2, psRef_S]
  · intro i
    fin_cases i <;>
      simp [afterTrade, psRef, wRef, xRef, shiftVec, optRef, abs_le] <;>
      norm_num [tRef]
  · intro x hx
    have h1 := hx.2 xRef hsol.1
    have h2 := hsol.2 x hx.1
    rw [hphi] at h1 h2
    linarith

/-- C6 counterexample.  `psNeg` is malformed (its first holding is
negative), yet the Rebalancer does not reject it: the problem is
constructed, the solve proceeds and a trade vector is returned — no
InvalidInput is surfaced. -/
theorem input_validation_cex :
    psNeg.holdings 0 < 0 ∧ ∃ x, Solves psNeg x :=
  ⟨by norm_num [psNeg], ⟨_, psNeg_solves⟩⟩

/-- C6 as amended.  The notebook performs no input validation: a
`PortfolioState` with a negative holding is passed to problem construction
as-is and the solve proceeds, here returning the zero trade. -/
theorem no_input_validation :
    psNeg.holdings 0 < 0 ∧ Solves psNeg (fun _ => 0) :=
  ⟨by norm_num [psNeg], psNeg_solves⟩

/-- C7.  Determinism of the solve: the model of the call is a pure relation
on immutable inputs, and the optimal objective value is unique — any two
returned trade vectors have equal `phi`, a fortiori within solver
tolerance. -/
theorem objective_deterministic {n : ℕ} (ps : PortfolioState n)
    (x1 x2 : Fin n → ℚ) (_hv : validState ps)
    (h1 : Solves ps x1) (h2 : Solves ps x2) : phi x1 = phi x2 :=
  le_antisymm (h1.2 x2 h2.1) (h2.2 x1 h1.1)

/-- Witness for C7 at `psTie`, where two DISTINCT optimal trade vectors
exist and their objective values coincide. -/
theorem objective_deterministic_witness :
    phi (shiftVec (0 : Fin 3) 2 1) = phi (shiftVec (1 : Fin 3) 2 1) :=
  objective_deterministic psTie _ _
    ⟨by norm_num, by intro i; fin_cases i <;> norm_num [psTie]⟩
    psTie_solves_a psTie_solves_b

/-- C8 counterexample.  With a crossed book (bid 2 above ask 1) and trade
price 3/2 strictly above the ask, the bounce is 1/2 — inside `[0, 1]` — so
"above the ask implies a value outside [0,1]" fails as stated for arbitrary
`a ≠ b`. -/
theorem bid_ask_bounce_cex :
    bidAskBounce (3/2) 2 1 = some (1/2)
    ∧ (1 : ℚ) < 3/2
    ∧ (0 : ℚ) ≤ 1/2 ∧ (1/2 : ℚ) ≤ 1 := by
  norm_num [bidAskBounce]

/-- C8 as amended.  For `a = b` the bounce is undefined; for an uncrossed
book (`b < a`) it equals `(t - b)/(a - b)` exactly, is 0 at the bid, 1 at
the ask, above 1 for a trade above the ask and below 0 for a trade below
the bid. -/
theorem bid_ask_bounce_amended (t b a : ℚ) :
    (a = b → bidAskBounce t b a = none)
    ∧ (b < a →
        bidAskBounce t b a = some ((t - b) / (a - b))
        ∧ (t = b → bidAskBounce t b a = some 0)
        ∧ (t = a → bidAskBounce t b a = some 1)
        ∧ (a < t → 1 < (t - b) / (a - b))
        ∧ (t < b → (t - b) / (a - b) < 0)) := by
  constructor
  · intro h
    simp [bidAskBounce, h]
  · intro hba
    have hne : a ≠ b := ne_of_gt hba
    have hpos : 0 < a - b := sub_pos.mpr hba
    refine ⟨by simp [bidAskBounce, hne], ?_, ?_, ?_, ?_⟩
    · intro h
      subst h
      simp [bidAskBounce, hne]
    · intro h
      subst h
      simp [bidAskBounce, hne]
      exact div_self (ne_of_gt hpos)
    · intro h
      rw [one_lt_div hpos]
      linarith
    · intro h
      exact div_neg_of_neg_of_pos (by linarith) hpos

/-- Witness for C8: the amended statement applied at `t = 3`, `b = 1`,
`a = 2` (trade above the ask of an uncrossed book). -/
theorem bid_ask_bounce_witness :
    ((2 : ℚ) = 1 → bidAskBounce 3 1 2 = none)
    ∧ ((1 : ℚ) < 2 →
        bidAskBounce 3 1 2 = some ((3 - 1) / (2 - 1))
        ∧ ((3 : ℚ) = 1 → bidAskBounce 3 1 2 = some 0)
        ∧ ((3 : ℚ) = 2 → bidAskBounce 3 1 2 = some 1)
        ∧ ((2 : ℚ) < 3 → 1 < ((3 : ℚ) - 1) / (2 - 1))
        ∧ ((3 : ℚ) < 1 → ((3 : ℚ) - 1) / (2 - 1) < 0)) :=
  bid_ask_bounce_amended 3 1 2

/-- C9 counterexample.  A single observation of volume (resp. duration) 0
makes VWAP (resp. TWAP) undefined, not equal to the observation's price:
the identity does not hold "regardless of volume or duration". -/
theorem single_observation_cex :
    vwap [((5 : ℚ), 0)] = none
    ∧ twap [((5 : ℚ), 0)] = none
    ∧ vwap [((5 : ℚ), 0)] ≠ some 5 := by
  refine ⟨by norm_num [vwap], by norm_num [twap], ?_⟩
  norm_num [vwap]
  exact fun h => Option.noConfusion h

/-- C9 as amended.  Over a window of exactly one observation with nonzero
volume (resp. nonzero duration), VWAP and TWAP both equal that
observation's price. -/
theorem single_observation_average (p v d : ℚ) (hv : v ≠ 0) (hd : d ≠ 0) :
    vwap [(p, v)] = some p ∧ twap [(p, d)] = some p := by
  constructor
  · simp [vwap, hv]
  · simp [twap, hd]

/-- Witness for C9 at price 7, volume 2, duration 3. -/
theorem single_observation_witness :
    vwap [((7 : ℚ), 2)] = some 7 ∧ twap [((7 : ℚ), 3)] = some 7 :=
  single_observation_average 7 2 3 (by norm_num) (by norm_num)

/-- C10.  The long-only property is not preserved: `psShort` is valid (all
holdings nonnegative) with `min_return` above every expected return, yet
the Rebalancer returns `xShort` whose first post-trade holding is negative
— indeed EVERY vector meeting the two constraints opens a short position,
because the constructed problem has no nonnegativity constraint on
`holdings + x`. -/
theorem long_only_not_preserved :
    validState psShort
    ∧ (∀ i, psShort.expected_returns i < psShort.min_return)
    ∧ Solves psShort xShort
    ∧ afterTrade psShort xShort 0 < 0
    ∧ ∀ x, feasible psShort x → ∃ i, afterTrade psShort x i < 0 := by
  refine ⟨⟨by norm_num, by intro i; fin_cases i <;> norm_num [psShort]⟩,
    by intro i; fin_cases i <;> norm_num [psShort],
    psShort_solves,
    by norm_num [afterTrade, psShort, xShort, shiftVec],
    ?_⟩
  intro x hx
  rw [feasible_iff psShort x psShort_S] at hx
  obtain ⟨h1, h2⟩ := hx
  norm_num [psShort, totalValue, dotp, Fin.sum_univ_two] at h1 h2
  refine ⟨0, ?_⟩
  have h3 : afterTrade psShort x 0 = 1 + x 0 := by
    norm_num [afterTrade, psShort]
  rw [h3]
  linarith

end PortfolioOpt
